import Mathlib

/-!
Shallow embedding of the Wave Function Collapse core of
`bevy_wave_function_collapse_aseprite` (`src/lib.rs`), together with
verification of the specification's claims about it.

Conventions of the embedding:
* Pixel coordinates and colors are natural numbers; an image is a total
  color lookup (the source's `get_color_at(x, y).unwrap()` is fatal out of
  bounds, so only in-bounds sampling is modelled).
* `rand::rngs::StdRng` is a deterministic generator advanced by each draw;
  it is modelled as a stream of pre-computed draws plus a position, and a
  uniform choice over `n` items consumes one draw reduced mod `n`.
* The driver loop of `Grid::collapse_with` has no termination bound in the
  source; it is modelled with explicit fuel, `none` meaning fuel ran out.
-/

namespace WfcAse

/-- A pixel position (the source reads `rect.min.x` etc. as `u32`). -/
structure Pt where
  x : Nat
  y : Nat
deriving DecidableEq

/-- An axis-aligned rectangle, mirroring `bevy::math::Rect` as used by the
source (only `min`/`max` corners are ever read). -/
structure Rect where
  min : Pt
  max : Pt
deriving DecidableEq

/-- An image: a total color lookup `get_color_at`. -/
def Img : Type := Nat → Nat → Nat

/-- `Tile` from `src/lib.rs`: slice name, source rectangle, and the four
directional adjacency lists. -/
structure Tile where
  slice_name : String
  rect : Rect
  up : List Nat
  right : List Nat
  down : List Nat
  left : List Nat
deriving DecidableEq

/-- `Tile::new`: empty adjacency lists. -/
def Tile.new (slice_name : String) (rect : Rect) : Tile :=
  ⟨slice_name, rect, [], [], [], []⟩

/-- Default tile used to make list indexing total (the source indexes with
`tiles[socket]`, which panics out of bounds; in-range indexing is what all
real runs perform). -/
def defaultTile : Tile := Tile.new "" ⟨⟨0, 0⟩, ⟨0, 0⟩⟩

/-- `Tileset` from `src/lib.rs`. -/
structure Tileset where
  tiles : List Tile
  tile_size : Nat
deriving DecidableEq

/-- `compare_edge` from `src/lib.rs`: walk `tile_size` samples starting at
the two given positions, stepping by `(dx, dy)`, and report whether every
pair of sampled colors matches. -/
def compare_edge (image : Img) (source_x source_y dest_x dest_y dx dy tile_size : Nat) : Bool :=
  (List.range tile_size).all fun i =>
    image (source_x + dx * i) (source_y + dy * i) == image (dest_x + dx * i) (dest_y + dy * i)

/-- `generating_adjacency_rules` from `src/lib.rs`: for every `current`
tile and every `dest` tile of the cloned (pre-mutation) tileset — the self
pair included — compare the touching edge strips and push `dest_index`
onto the corresponding directional list of `current` on a match. -/
def generating_adjacency_rules (tiles : Tileset) (image : Img) (tile_size : Nat) : Tileset :=
  let cloned := tiles
  { tiles with
    tiles := tiles.tiles.map fun current =>
      { current with
        up := current.up ++ ((List.range cloned.tiles.length).filter fun dest_index =>
          let dest := cloned.tiles.getD dest_index defaultTile
          compare_edge image current.rect.min.x current.rect.min.y
            dest.rect.min.x (dest.rect.max.y - 1) 1 0 tile_size),
        down := current.down ++ ((List.range cloned.tiles.length).filter fun dest_index =>
          let dest := cloned.tiles.getD dest_index defaultTile
          compare_edge image current.rect.min.x (current.rect.max.y - 1)
            dest.rect.min.x dest.rect.min.y 1 0 tile_size),
        left := current.left ++ ((List.range cloned.tiles.length).filter fun dest_index =>
          let dest := cloned.tiles.getD dest_index defaultTile
          compare_edge image current.rect.min.x current.rect.min.y
            (dest.rect.max.x - 1) dest.rect.min.y 0 1 tile_size),
        right := current.right ++ ((List.range cloned.tiles.length).filter fun dest_index =>
          let dest := cloned.tiles.getD dest_index defaultTile
          compare_edge image (current.rect.max.x - 1) current.rect.min.y
            dest.rect.min.x dest.rect.min.y 0 1 tile_size) } }

/-- `Tileset::new` from `src/lib.rs`, taking the aseprite slice map as a
list of (name, rect) pairs.  The tile size is the width of the first
slice's rect; a slice whose width or height disagrees only triggers an
`error!` log in the source — the slice is still pushed as a tile (there is
no `continue`).  Tiles are then sorted by slice name (the source uses the
stable `sort_by`; a stable sort's output is unique, rendered here with
`List.insertionSort`) and adjacency rules are generated. -/
def Tileset.new (slices : List (String × Rect)) (image : Img) : Tileset :=
  let first := slices.headD ("", ⟨⟨0, 0⟩, ⟨0, 0⟩⟩)
  let tile_size := first.2.max.x - first.2.min.x
  let tiles := slices.map fun s => Tile.new s.1 s.2
  let sorted := List.insertionSort (fun a b => a.slice_name ≤ b.slice_name) tiles
  generating_adjacency_rules { tiles := sorted, tile_size := tile_size } image tile_size

/-- `Cell` from `src/lib.rs`. -/
structure Cell where
  index : Nat
  collapsed : Bool
  sockets : List Nat
deriving DecidableEq

/-- `Cell::from_value`. -/
def Cell.from_value (index value : Nat) : Cell :=
  ⟨index, false, List.range value⟩

/-- `Cell::from_list`. -/
def Cell.from_list (index : Nat) (value : List Nat) : Cell :=
  ⟨index, false, value⟩

/-- Default cell used to make list indexing total. -/
def defaultCell : Cell := ⟨0, false, []⟩

/-- `Grid` from `src/lib.rs`. -/
structure Grid where
  tileset : Tileset
  cells : List Cell
  dimension : Nat

/-- `Tileset::create_grid`. -/
def Tileset.create_grid (t : Tileset) (dimension : Nat) : Grid :=
  { tileset := t
    cells := (List.range (dimension * dimension)).map fun index =>
      Cell.from_value index t.tiles.length
    dimension := dimension }

/-- The state of `rand::rngs::StdRng`: a deterministic stream of draws and
the current position in it.  `seq` abstracts the generator's outputs. -/
structure Rng where
  seq : Nat → Nat
  pos : Nat

/-- One uniform draw in `0..n` (`SliceRandom::choose` on a slice of length
`n`), advancing the generator. -/
def Rng.draw (r : Rng) (n : Nat) : Nat × Rng :=
  (r.seq r.pos % n, ⟨r.seq, r.pos + 1⟩)

/-- `get_valid_sockets` from `src/lib.rs`: union (concatenation) over the
cell's current sockets of that tile's adjacency list for `direction`. -/
def get_valid_sockets (cell : Cell) (direction : String) (tiles : Tileset) : List Nat :=
  cell.sockets.flatMap fun socket =>
    let tile := tiles.tiles.getD socket defaultTile
    match direction with
    | "up" => tile.up
    | "right" => tile.right
    | "down" => tile.down
    | "left" => tile.left
    | _ => []

/-- `cell_collapse` from `src/lib.rs`: retain only the sockets the given
neighbor cell permits. -/
def cell_collapse (cell : Cell) (direction : String) (sockets : List Nat) (tiles : Tileset) : List Nat :=
  let valid_sockets := get_valid_sockets cell direction tiles
  sockets.filter fun socket => valid_sockets.contains socket

/-- The socket recomputation of one uncollapsed cell inside
`wave_collapse` from `src/lib.rs`: start from the full domain and filter
through each existing neighbor (up, right, down, left — reading the
neighbor's list pointing back at this cell). -/
def compute_sockets (cells : List Cell) (dimension : Nat) (tileset : Tileset) (i j : Nat) : List Nat :=
  let s0 := List.range tileset.tiles.length
  let s1 := if 0 < j then
    cell_collapse (cells.getD (i + (j - 1) * dimension) defaultCell) "down" s0 tileset else s0
  let s2 := if i < dimension - 1 then
    cell_collapse (cells.getD (i + 1 + j * dimension) defaultCell) "left" s1 tileset else s1
  let s3 := if j < dimension - 1 then
    cell_collapse (cells.getD (i + (j + 1) * dimension) defaultCell) "up" s2 tileset else s2
  let s4 := if 0 < i then
    cell_collapse (cells.getD (i - 1 + j * dimension) defaultCell) "right" s3 tileset else s3
  s4

/-- `wave_collapse` from `src/lib.rs`: one synchronous sweep.  The source
fills a fresh `next_grid` buffer indexed by position (reading only the
pre-sweep `cells`) and then replaces `cells` with it; a collapsed cell is
carried over unchanged, an uncollapsed cell is rebuilt from the filtered
domain.  The source's row-major double loop (`index = i + j * dimension`)
is rendered as a map over all indices with `i = index % dimension`,
`j = index / dimension`. -/
def wave_collapse (cells : List Cell) (dimension : Nat) (tileset : Tileset) : List Cell :=
  (List.range (dimension * dimension)).map fun index =>
    let i := index % dimension
    let j := index / dimension
    if (cells.getD index defaultCell).collapsed then cells.getD index defaultCell
    else Cell.from_list index (compute_sockets cells dimension tileset i j)

/-- `pick_cell_with_least_entropy` from `src/lib.rs`.  The source collects
mutable references to all uncollapsed cells, sorts them by socket count
(stable `sort_by_key`, rendered as the stable `List.insertionSort`),
truncates at the first cell whose count exceeds the minimum and returns
the references; the embedding returns the cells' positions instead of
references. -/
def pick_cell_with_least_entropy (cells : List Cell) : List Nat :=
  let grid_copy := (List.range cells.length).filter fun p =>
    !(cells.getD p defaultCell).collapsed
  if grid_copy.isEmpty then []
  else
    let sorted := List.insertionSort (fun a b =>
      (cells.getD a defaultCell).sockets.length ≤ (cells.getD b defaultCell).sockets.length) grid_copy
    let len := (cells.getD (sorted.headD 0) defaultCell).sockets.length
    let stop_index := sorted.findIdx fun p =>
      len < (cells.getD p defaultCell).sockets.length
    sorted.take stop_index

/-- `random_selection_of_sockets` from `src/lib.rs`: uniformly choose one
of the candidate cells, mark it collapsed, and — if its sockets are
nonempty — uniformly choose one socket and fix the cell to it, reporting
success; an empty socket set reports failure (the collapsed mark is still
written, as in the source, but the caller discards the grid then). -/
def random_selection_of_sockets (rng : Rng) (cells : List Cell) (grid_target : List Nat) :
    Bool × List Cell × Rng :=
  if grid_target.isEmpty then (false, cells, rng)
  else
    let d1 := rng.draw grid_target.length
    let p := grid_target.getD d1.1 0
    let cell := cells.getD p defaultCell
    let cell1 := { cell with collapsed := true }
    if cell.sockets.isEmpty then (false, cells.set p cell1, d1.2)
    else
      let d2 := d1.2.draw cell.sockets.length
      let pick := cell.sockets.getD d2.1 0
      (true, cells.set p { cell1 with sockets := [pick] }, d2.2)

/-- The loop of `Grid::collapse_with` from `src/lib.rs`, with explicit
fuel (`none` = fuel exhausted; the source loops unboundedly). `initial` is
`self.cells`, restored verbatim on a contradiction restart. -/
def collapse_with (initial : List Cell) (dimension : Nat) (tileset : Tileset) :
    Nat → List Cell → Rng → Option (List Cell)
  | 0, _, _ => none
  | fuel + 1, cells, rng =>
    let low_entropy_grid := pick_cell_with_least_entropy cells
    if low_entropy_grid.isEmpty then some cells
    else
      let sel := random_selection_of_sockets rng cells low_entropy_grid
      if sel.1 then
        collapse_with initial dimension tileset fuel (wave_collapse sel.2.1 dimension tileset) sel.2.2
      else
        collapse_with initial dimension tileset fuel initial sel.2.2

/-- The tile index held by a collapsed cell: its single socket. -/
def tileOf (c : Cell) : Nat := c.sockets.headD 0

/-- The directional adjacency list of tile index `t`. -/
def dirList (tileset : Tileset) (t : Nat) (direction : String) : List Nat :=
  let tile := tileset.tiles.getD t defaultTile
  match direction with
  | "up" => tile.up
  | "right" => tile.right
  | "down" => tile.down
  | "left" => tile.left
  | _ => []

/-- The cell at grid coordinates `(i, j)` (row-major, `index = i + j * dimension`). -/
def cellAt (cells : List Cell) (dimension i j : Nat) : Cell :=
  cells.getD (i + j * dimension) defaultCell

/-- Post-hoc adjacency consistency of a grid: for every cell and each of
its (up to four) neighbors, if both are collapsed then the neighbor's tile
index is in the cell's adjacency list pointing toward that neighbor. -/
def grid_consistent (tileset : Tileset) (dimension : Nat) (cells : List Cell) : Prop :=
  ∀ i, i < dimension → ∀ j, j < dimension →
    (cellAt cells dimension i j).collapsed = true →
      (0 < j → (cellAt cells dimension i (j - 1)).collapsed = true →
        tileOf (cellAt cells dimension i (j - 1)) ∈
          dirList tileset (tileOf (cellAt cells dimension i j)) "up") ∧
      (i + 1 < dimension → (cellAt cells dimension (i + 1) j).collapsed = true →
        tileOf (cellAt cells dimension (i + 1) j) ∈
          dirList tileset (tileOf (cellAt cells dimension i j)) "right") ∧
      (j + 1 < dimension → (cellAt cells dimension i (j + 1)).collapsed = true →
        tileOf (cellAt cells dimension i (j + 1)) ∈
          dirList tileset (tileOf (cellAt cells dimension i j)) "down") ∧
      (0 < i → (cellAt cells dimension (i - 1) j).collapsed = true →
        tileOf (cellAt cells dimension (i - 1) j) ∈
          dirList tileset (tileOf (cellAt cells dimension i j)) "left")

/-- A tileset whose adjacency lists are symmetric across opposite
directions (every tileset derived by `generating_adjacency_rules` is —
both rules come from comparing the same two pixel strips). -/
def opposite_symmetric (tileset : Tileset) : Prop :=
  ∀ a b : Nat,
    (b ∈ dirList tileset a "up" ↔ a ∈ dirList tileset b "down") ∧
    (b ∈ dirList tileset a "left" ↔ a ∈ dirList tileset b "right")

/-- Every collapsed cell holds exactly one socket. -/
def collapsed_singleton (cells : List Cell) : Prop :=
  ∀ c ∈ cells, c.collapsed = true → c.sockets.length = 1

/-- Modelled from the spec (§4.4 `PropagationEngine`), for comparison with
the source's `get_valid_sockets`: the set of tile indices a neighbor's
current sockets permit facing this cell — the union, over the neighbor's
sockets, of that tile's adjacency list for the direction pointing back. -/
def neighbor_allowed (tileset : Tileset) (nb : Cell) (direction : String) : List Nat :=
  nb.sockets.flatMap fun u => dirList tileset u direction

/-- Modelled from the spec (§4.4 `PropagationEngine`), for comparison with
the source's `compute_sockets`: starting from the full tile-index domain,
keep the indices permitted by every existing neighbor (up to four; fewer
at edges and corners), reading each neighbor's adjacency lists pointing
back at this cell. -/
def propagate_spec_sockets (cells : List Cell) (dimension : Nat) (tileset : Tileset) (i j : Nat) :
    List Nat :=
  (List.range tileset.tiles.length).filter fun s =>
    (!decide (0 < j) ||
      (neighbor_allowed tileset (cellAt cells dimension i (j - 1)) "down").contains s) &&
    (!decide (i + 1 < dimension) ||
      (neighbor_allowed tileset (cellAt cells dimension (i + 1) j) "left").contains s) &&
    (!decide (j + 1 < dimension) ||
      (neighbor_allowed tileset (cellAt cells dimension i (j + 1)) "up").contains s) &&
    (!decide (0 < i) ||
      (neighbor_allowed tileset (cellAt cells dimension (i - 1) j) "right").contains s)

/-! ### Generic indexing lemmas -/

theorem getD_map_range {α : Type} {n k : Nat} (f : Nat → α) (d : α) (h : k < n) :
    ((List.range n).map f).getD k d = f k := by
  rw [List.getD_eq_getElem?_getD, List.getElem?_map, List.getElem?_range h]
  rfl

theorem getD_set_self {α : Type} {l : List α} {p : Nat} (h : p < l.length) (c d : α) :
    (l.set p c).getD p d = c := by
  rw [List.getD_eq_getElem?_getD, List.getElem?_set_self h]
  rfl

theorem getD_set_other {α : Type} {l : List α} {p q : Nat} (h : p ≠ q) (c d : α) :
    (l.set p c).getD q d = l.getD q d := by
  rw [List.getD_eq_getElem?_getD, List.getElem?_set_ne h, ← List.getD_eq_getElem?_getD]

theorem getD_mem_of_lt {α : Type} {l : List α} {p : Nat} (h : p < l.length) (d : α) :
    l.getD p d ∈ l := by
  rw [List.getD_eq_getElem?_getD, List.getElem?_eq_getElem h]
  exact List.getElem_mem h

/-! ### Lemmas about the propagation sweep -/

theorem length_wave_collapse (cells : List Cell) (dimension : Nat) (tileset : Tileset) :
    (wave_collapse cells dimension tileset).length = dimension * dimension := by
  simp [wave_collapse]

theorem wave_collapse_getD {cells : List Cell} {dimension : Nat} {tileset : Tileset} {index : Nat}
    (h : index < dimension * dimension) :
    (wave_collapse cells dimension tileset).getD index defaultCell =
      if (cells.getD index defaultCell).collapsed then cells.getD index defaultCell
      else Cell.from_list index
        (compute_sockets cells dimension tileset (index % dimension) (index / dimension)) := by
  unfold wave_collapse
  rw [getD_map_range _ _ h]

theorem get_valid_sockets_eq_neighbor_allowed (cell : Cell) (d : String) (ts : Tileset) :
    get_valid_sockets cell d ts = neighbor_allowed ts cell d := rfl

theorem mem_cell_collapse {s : Nat} {cell : Cell} {d : String} {l : List Nat} {ts : Tileset} :
    s ∈ cell_collapse cell d l ts ↔ s ∈ l ∧ s ∈ get_valid_sockets cell d ts := by
  simp [cell_collapse, List.mem_filter]

theorem mem_ite_cell_collapse {c : Prop} [Decidable c] {s : Nat} {nb : Cell} {d : String}
    {l : List Nat} {ts : Tileset} :
    s ∈ (if c then cell_collapse nb d l ts else l) ↔
      s ∈ l ∧ (c → s ∈ get_valid_sockets nb d ts) := by
  by_cases h : c <;> simp [h, mem_cell_collapse]

theorem mem_compute_sockets {cells : List Cell} {dimension : Nat} {tileset : Tileset}
    {i j s : Nat} :
    s ∈ compute_sockets cells dimension tileset i j ↔
      s ∈ List.range tileset.tiles.length ∧
      (0 < j →
        s ∈ get_valid_sockets (cells.getD (i + (j - 1) * dimension) defaultCell) "down" tileset) ∧
      (i < dimension - 1 →
        s ∈ get_valid_sockets (cells.getD (i + 1 + j * dimension) defaultCell) "left" tileset) ∧
      (j < dimension - 1 →
        s ∈ get_valid_sockets (cells.getD (i + (j + 1) * dimension) defaultCell) "up" tileset) ∧
      (0 < i →
        s ∈ get_valid_sockets (cells.getD (i - 1 + j * dimension) defaultCell) "right" tileset) := by
  unfold compute_sockets
  rw [mem_ite_cell_collapse, mem_ite_cell_collapse, mem_ite_cell_collapse, mem_ite_cell_collapse]
  tauto

theorem mem_propagate_spec_sockets {cells : List Cell} {dimension : Nat} {tileset : Tileset}
    {i j s : Nat} :
    s ∈ propagate_spec_sockets cells dimension tileset i j ↔
      s ∈ List.range tileset.tiles.length ∧
      (0 < j → s ∈ neighbor_allowed tileset (cellAt cells dimension i (j - 1)) "down") ∧
      (i + 1 < dimension → s ∈ neighbor_allowed tileset (cellAt cells dimension (i + 1) j) "left") ∧
      (j + 1 < dimension → s ∈ neighbor_allowed tileset (cellAt cells dimension i (j + 1)) "up") ∧
      (0 < i → s ∈ neighbor_allowed tileset (cellAt cells dimension (i - 1) j) "right") := by
  simp only [propagate_spec_sockets, List.mem_filter, Bool.and_eq_true, Bool.or_eq_true,
    Bool.not_eq_true', decide_eq_false_iff_not, List.elem_iff]
  constructor
  · rintro ⟨hr, ⟨⟨h1, h2⟩, h3⟩, h4⟩
    refine ⟨hr, ?_, ?_, ?_, ?_⟩ <;> intro hc
    · rcases h1 with h | h
      · exact absurd hc h
      · simpa using h
    · rcases h2 with h | h
      · exact absurd hc h
      · simpa using h
    · rcases h3 with h | h
      · exact absurd hc h
      · simpa using h
    · rcases h4 with h | h
      · exact absurd hc h
      · simpa using h
  · rintro ⟨hr, h1, h2, h3, h4⟩
    refine ⟨hr, ⟨⟨?_, ?_⟩, ?_⟩, ?_⟩
    · by_cases hc : 0 < j
      · exact Or.inr (by simpa using h1 hc)
      · exact Or.inl hc
    · by_cases hc : i + 1 < dimension
      · exact Or.inr (by simpa using h2 hc)
      · exact Or.inl hc
    · by_cases hc : j + 1 < dimension
      · exact Or.inr (by simpa using h3 hc)
      · exact Or.inl hc
    · by_cases hc : 0 < i
      · exact Or.inr (by simpa using h4 hc)
      · exact Or.inl hc

theorem compute_sockets_eq_spec {cells : List Cell} {dimension : Nat} {tileset : Tileset}
    {i j s : Nat} :
    s ∈ compute_sockets cells dimension tileset i j ↔
      s ∈ propagate_spec_sockets cells dimension tileset i j := by
  rw [mem_compute_sockets, mem_propagate_spec_sockets]
  simp only [get_valid_sockets_eq_neighbor_allowed, cellAt]
  constructor
  · rintro ⟨hr, h1, h2, h3, h4⟩
    exact ⟨hr, h1, fun hc => h2 (by omega), fun hc => h3 (by omega), h4⟩
  · rintro ⟨hr, h1, h2, h3, h4⟩
    exact ⟨hr, h1, fun hc => h2 (by omega), fun hc => h3 (by omega), h4⟩

/-- C9: one propagation sweep leaves every collapsed cell entirely
unchanged — the post-sweep cell at the collapsed cell's position equals
the pre-sweep cell (index, collapsed flag and socket list included). -/
theorem wave_collapse_preserves_collapsed
    (cells : List Cell) (dimension : Nat) (tileset : Tileset) (index : Nat)
    (hidx : index < dimension * dimension)
    (hc : (cells.getD index defaultCell).collapsed = true) :
    (wave_collapse cells dimension tileset).getD index defaultCell =
      cells.getD index defaultCell := by
  rw [wave_collapse_getD hidx, if_pos hc]

/-- Witness for C9 at a concrete collapsed cell. -/
theorem wave_collapse_preserves_collapsed_witness :
    0 < 1 * 1 ∧ (([⟨0, true, [0]⟩] : List Cell).getD 0 defaultCell).collapsed = true ∧
      (wave_collapse [⟨0, true, [0]⟩] 1 ⟨[], 0⟩).getD 0 defaultCell =
        ([⟨0, true, [0]⟩] : List Cell).getD 0 defaultCell :=
  ⟨by decide, by decide,
    wave_collapse_preserves_collapsed [⟨0, true, [0]⟩] 1 ⟨[], 0⟩ 0 (by decide) (by decide)⟩

/-- C3: one sweep recomputes every uncollapsed cell's socket set as the
intersection — starting from the full tile-index domain — over each
existing neighbor of the union, over that neighbor's current sockets, of
the neighbor tile's adjacency list pointing back at this cell
(`propagate_spec_sockets` is worded from the spec); the new value is
computed purely from the pre-sweep grid, so it does not depend on the
sweep's visitation order. -/
theorem wave_collapse_spec
    (cells : List Cell) (dimension : Nat) (tileset : Tileset) (index : Nat)
    (hidx : index < dimension * dimension)
    (hc : (cells.getD index defaultCell).collapsed = false) :
    (wave_collapse cells dimension tileset).getD index defaultCell =
      Cell.from_list index
        (compute_sockets cells dimension tileset (index % dimension) (index / dimension)) ∧
    ∀ s, s ∈ compute_sockets cells dimension tileset (index % dimension) (index / dimension) ↔
      s ∈ propagate_spec_sockets cells dimension tileset (index % dimension) (index / dimension) := by
  refine ⟨?_, fun s => compute_sockets_eq_spec⟩
  rw [wave_collapse_getD hidx, if_neg (by simp only [hc]; exact Bool.false_ne_true)]

/-- Witness for C3 on a concrete uncollapsed cell. -/
theorem wave_collapse_spec_witness :
    0 < 1 * 1 ∧ (([⟨0, false, [0]⟩] : List Cell).getD 0 defaultCell).collapsed = false ∧
      ((wave_collapse [⟨0, false, [0]⟩] 1 ⟨[], 0⟩).getD 0 defaultCell =
        Cell.from_list 0 (compute_sockets [⟨0, false, [0]⟩] 1 ⟨[], 0⟩ 0 0) ∧
      ∀ s, s ∈ compute_sockets [⟨0, false, [0]⟩] 1 ⟨[], 0⟩ 0 0 ↔
        s ∈ propagate_spec_sockets [⟨0, false, [0]⟩] 1 ⟨[], 0⟩ 0 0) :=
  ⟨by decide, by decide,
    wave_collapse_spec [⟨0, false, [0]⟩] 1 ⟨[], 0⟩ 0 (by decide) (by decide)⟩

/-- C4: whenever the selected cell's socket set is empty at assignment
time (`random_selection_of_sockets` reports failure), the driver replaces
the working cells with the initial cells (any external seed included,
since `initial` is `self.cells` verbatim) and continues looping; no
failure is surfaced (the only `none` of the embedding is fuel
exhaustion, which models the source's unbounded loop, not an error). -/
theorem contradiction_restarts
    (initial cells : List Cell) (dimension : Nat) (tileset : Tileset) (fuel : Nat) (rng : Rng)
    (hne : (pick_cell_with_least_entropy cells).isEmpty = false)
    (hfail : (random_selection_of_sockets rng cells (pick_cell_with_least_entropy cells)).1 = false) :
    collapse_with initial dimension tileset (fuel + 1) cells rng =
      collapse_with initial dimension tileset fuel initial
        (random_selection_of_sockets rng cells (pick_cell_with_least_entropy cells)).2.2 := by
  simp only [collapse_with, hne, hfail, Bool.false_eq_true, if_false]

/-- Witness for C4: a cell with an empty socket set is chosen and the
loop restarts from the initial cells. -/
theorem contradiction_restarts_witness :
    (pick_cell_with_least_entropy [⟨0, false, []⟩]).isEmpty = false ∧
    (random_selection_of_sockets ⟨fun _ => 0, 0⟩ [⟨0, false, []⟩]
      (pick_cell_with_least_entropy [⟨0, false, []⟩])).1 = false ∧
    collapse_with [⟨0, false, []⟩] 1 ⟨[], 0⟩ 1 [⟨0, false, []⟩] ⟨fun _ => 0, 0⟩ =
      collapse_with [⟨0, false, []⟩] 1 ⟨[], 0⟩ 0 [⟨0, false, []⟩]
        (random_selection_of_sockets ⟨fun _ => 0, 0⟩ [⟨0, false, []⟩]
          (pick_cell_with_least_entropy [⟨0, false, []⟩])).2.2 :=
  ⟨by decide, by decide,
    contradiction_restarts [⟨0, false, []⟩] [⟨0, false, []⟩] 1 ⟨[], 0⟩ 0 ⟨fun _ => 0, 0⟩
      (by decide) (by decide)⟩

/-- C8: the whole run is a pure function of the generator state, the
initial cells, the dimension, the tileset and the iteration budget — two
runs from identical inputs produce identical final grids (in the
embedding every random choice, including tie selection, tile choice and
restarts, is drawn deterministically from the generator state). -/
theorem collapse_with_deterministic
    (rng1 rng2 : Rng) (init1 init2 : List Cell) (dim1 dim2 : Nat) (ts1 ts2 : Tileset)
    (fuel1 fuel2 : Nat)
    (hrng : rng1 = rng2) (hinit : init1 = init2) (hdim : dim1 = dim2) (hts : ts1 = ts2)
    (hfuel : fuel1 = fuel2) :
    collapse_with init1 dim1 ts1 fuel1 init1 rng1 =
      collapse_with init2 dim2 ts2 fuel2 init2 rng2 := by
  rw [hrng, hinit, hdim, hts, hfuel]

/-- Witness for C8 at concrete equal inputs. -/
theorem collapse_with_deterministic_witness :
    collapse_with [⟨0, false, [0]⟩] 1 ⟨[⟨"a", ⟨⟨0, 0⟩, ⟨1, 1⟩⟩, [0], [0], [0], [0]⟩], 1⟩ 5
        [⟨0, false, [0]⟩] ⟨fun _ => 0, 0⟩ =
      collapse_with [⟨0, false, [0]⟩] 1 ⟨[⟨"a", ⟨⟨0, 0⟩, ⟨1, 1⟩⟩, [0], [0], [0], [0]⟩], 1⟩ 5
        [⟨0, false, [0]⟩] ⟨fun _ => 0, 0⟩ :=
  collapse_with_deterministic _ _ _ _ _ _ _ _ _ _ rfl rfl rfl rfl rfl

/-! ### Lemmas about adjacency derivation -/

/-- The tile stored at index `a` of a tileset. -/
def tile_at (ts : Tileset) (a : Nat) : Tile := ts.tiles.getD a defaultTile

/-- The color of a tile's pixel at offset `(dx, dy)` from its top-left corner. -/
def pixel (img : Img) (t : Tile) (dx dy : Nat) : Nat :=
  img (t.rect.min.x + dx) (t.rect.min.y + dy)

theorem getD_map_lt {α β : Type} {l : List α} {f : α → β} {a : Nat}
    (h : a < l.length) (d : β) (d' : α) :
    (l.map f).getD a d = f (l.getD a d') := by
  rw [List.getD_eq_getElem?_getD, List.getElem?_map, List.getElem?_eq_getElem h,
    List.getD_eq_getElem?_getD, List.getElem?_eq_getElem h]
  rfl

theorem compare_edge_eq_true_iff {img : Img} {sx sy dx dy ddx ddy n : Nat} :
    compare_edge img sx sy dx dy ddx ddy n = true ↔
      ∀ m, m < n → img (sx + ddx * m) (sy + ddy * m) = img (dx + ddx * m) (dy + ddy * m) := by
  simp [compare_edge, List.all_eq_true, List.mem_range]

theorem compare_edge_symm {img : Img} {sx sy dx dy ddx ddy n : Nat} :
    compare_edge img sx sy dx dy ddx ddy n = compare_edge img dx dy sx sy ddx ddy n := by
  rw [Bool.eq_iff_iff, compare_edge_eq_true_iff, compare_edge_eq_true_iff]
  exact ⟨fun h m hm => (h m hm).symm, fun h m hm => (h m hm).symm⟩

theorem mem_generated_up {ts : Tileset} {img : Img} {size : Nat} {a b : Nat}
    (ha : a < ts.tiles.length) :
    b ∈ (tile_at (generating_adjacency_rules ts img size) a).up ↔
      b ∈ (tile_at ts a).up ∨
      (b < ts.tiles.length ∧
        compare_edge img (tile_at ts a).rect.min.x (tile_at ts a).rect.min.y
          (tile_at ts b).rect.min.x ((tile_at ts b).rect.max.y - 1) 1 0 size = true) := by
  unfold tile_at
  simp only [generating_adjacency_rules]
  rw [getD_map_lt ha defaultTile defaultTile]
  simp only [List.mem_append, List.mem_filter, List.mem_range]

theorem mem_generated_down {ts : Tileset} {img : Img} {size : Nat} {a b : Nat}
    (ha : a < ts.tiles.length) :
    b ∈ (tile_at (generating_adjacency_rules ts img size) a).down ↔
      b ∈ (tile_at ts a).down ∨
      (b < ts.tiles.length ∧
        compare_edge img (tile_at ts a).rect.min.x ((tile_at ts a).rect.max.y - 1)
          (tile_at ts b).rect.min.x (tile_at ts b).rect.min.y 1 0 size = true) := by
  unfold tile_at
  simp only [generating_adjacency_rules]
  rw [getD_map_lt ha defaultTile defaultTile]
  simp only [List.mem_append, List.mem_filter, List.mem_range]

theorem mem_generated_left {ts : Tileset} {img : Img} {size : Nat} {a b : Nat}
    (ha : a < ts.tiles.length) :
    b ∈ (tile_at (generating_adjacency_rules ts img size) a).left ↔
      b ∈ (tile_at ts a).left ∨
      (b < ts.tiles.length ∧
        compare_edge img (tile_at ts a).rect.min.x (tile_at ts a).rect.min.y
          ((tile_at ts b).rect.max.x - 1) (tile_at ts b).rect.min.y 0 1 size = true) := by
  unfold tile_at
  simp only [generating_adjacency_rules]
  rw [getD_map_lt ha defaultTile defaultTile]
  simp only [List.mem_append, List.mem_filter, List.mem_range]

theorem mem_generated_right {ts : Tileset} {img : Img} {size : Nat} {a b : Nat}
    (ha : a < ts.tiles.length) :
    b ∈ (tile_at (generating_adjacency_rules ts img size) a).right ↔
      b ∈ (tile_at ts a).right ∨
      (b < ts.tiles.length ∧
        compare_edge img ((tile_at ts a).rect.max.x - 1) (tile_at ts a).rect.min.y
          (tile_at ts b).rect.min.x (tile_at ts b).rect.min.y 0 1 size = true) := by
  unfold tile_at
  simp only [generating_adjacency_rules]
  rw [getD_map_lt ha defaultTile defaultTile]
  simp only [List.mem_append, List.mem_filter, List.mem_range]

theorem length_generated (ts : Tileset) (img : Img) (size : Nat) :
    (generating_adjacency_rules ts img size).tiles.length = ts.tiles.length := by
  simp [generating_adjacency_rules]

theorem tile_at_generated_oob {ts : Tileset} {img : Img} {size : Nat} {a : Nat}
    (ha : ts.tiles.length ≤ a) :
    tile_at (generating_adjacency_rules ts img size) a = defaultTile := by
  unfold tile_at
  exact List.getD_eq_default _ _ (by rw [length_generated]; exact ha)

theorem dirList_up (ts : Tileset) (t : Nat) : dirList ts t "up" = (tile_at ts t).up := rfl

theorem dirList_right (ts : Tileset) (t : Nat) : dirList ts t "right" = (tile_at ts t).right := rfl

theorem dirList_down (ts : Tileset) (t : Nat) : dirList ts t "down" = (tile_at ts t).down := rfl

theorem dirList_left (ts : Tileset) (t : Nat) : dirList ts t "left" = (tile_at ts t).left := rfl

/-- C10: adjacency lists derived by `generating_adjacency_rules` (from
tiles whose lists start empty, as `Tileset::new` builds them) are
symmetric across opposite directions: `j ∈ tiles[i].up ↔ i ∈
tiles[j].down` and `j ∈ tiles[i].left ↔ i ∈ tiles[j].right` — each pair
of rules compares the same two pixel strips, and pixel equality is
symmetric. -/
theorem generated_adjacency_opposite_symmetric
    (ts : Tileset) (img : Img) (size : Nat)
    (hempty : ∀ t ∈ ts.tiles, t.up = [] ∧ t.right = [] ∧ t.down = [] ∧ t.left = []) :
    opposite_symmetric (generating_adjacency_rules ts img size) := by
  have hget : ∀ a, a < ts.tiles.length →
      (tile_at ts a).up = [] ∧ (tile_at ts a).right = [] ∧
      (tile_at ts a).down = [] ∧ (tile_at ts a).left = [] := fun a ha =>
    hempty _ (getD_mem_of_lt ha _)
  intro a b
  by_cases ha : a < ts.tiles.length
  · by_cases hb : b < ts.tiles.length
    · constructor
      · rw [dirList_up, dirList_down, mem_generated_up ha, mem_generated_down hb,
          (hget a ha).1, (hget b hb).2.2.1]
        simp only [List.not_mem_nil, false_or]
        constructor
        · rintro ⟨_, hc⟩
          refine ⟨ha, ?_⟩
          rw [← compare_edge_symm]
          exact hc
        · rintro ⟨_, hc⟩
          refine ⟨hb, ?_⟩
          rw [← compare_edge_symm]
          exact hc
      · rw [dirList_left, dirList_right, mem_generated_left ha, mem_generated_right hb,
          (hget a ha).2.2.2, (hget b hb).2.1]
        simp only [List.not_mem_nil, false_or]
        constructor
        · rintro ⟨_, hc⟩
          refine ⟨ha, ?_⟩
          rw [← compare_edge_symm]
          exact hc
        · rintro ⟨_, hc⟩
          refine ⟨hb, ?_⟩
          rw [← compare_edge_symm]
          exact hc
    · constructor
      · rw [dirList_up, dirList_down, mem_generated_up ha,
          tile_at_generated_oob (Nat.le_of_not_lt hb), (hget a ha).1]
        simp [defaultTile, Tile.new, hb]
      · rw [dirList_left, dirList_right, mem_generated_left ha,
          tile_at_generated_oob (Nat.le_of_not_lt hb), (hget a ha).2.2.2]
        simp [defaultTile, Tile.new, hb]
  · constructor
    · rw [dirList_up, dirList_down, tile_at_generated_oob (Nat.le_of_not_lt ha)]
      by_cases hb : b < ts.tiles.length
      · rw [mem_generated_down hb, (hget b hb).2.2.1]
        simp [defaultTile, Tile.new, ha]
      · rw [tile_at_generated_oob (Nat.le_of_not_lt hb)]
        simp [defaultTile, Tile.new]
    · rw [dirList_left, dirList_right, tile_at_generated_oob (Nat.le_of_not_lt ha)]
      by_cases hb : b < ts.tiles.length
      · rw [mem_generated_right hb, (hget b hb).2.1]
        simp [defaultTile, Tile.new, ha]
      · rw [tile_at_generated_oob (Nat.le_of_not_lt hb)]
        simp [defaultTile, Tile.new]

/-- Concrete two-tile tileset with fresh (empty) adjacency lists. -/
def symTiles : Tileset :=
  ⟨[Tile.new "a" ⟨⟨0, 0⟩, ⟨1, 1⟩⟩, Tile.new "b" ⟨⟨1, 0⟩, ⟨2, 1⟩⟩], 1⟩

/-- Witness for C10 at a concrete tileset and image. -/
theorem generated_adjacency_opposite_symmetric_witness :
    (∀ t ∈ symTiles.tiles, t.up = [] ∧ t.right = [] ∧ t.down = [] ∧ t.left = []) ∧
      opposite_symmetric (generating_adjacency_rules symTiles (fun x _ => x) 1) :=
  ⟨by decide, generated_adjacency_opposite_symmetric symTiles (fun x _ => x) 1 (by decide)⟩

/-- Two 2×2 tiles with identical pixels (both have color 0 on row 0 and
color 1 on row 1 of `fun _ y => y`). -/
def identTiles : Tileset :=
  ⟨[Tile.new "a" ⟨⟨0, 0⟩, ⟨2, 2⟩⟩, Tile.new "b" ⟨⟨2, 0⟩, ⟨4, 2⟩⟩], 2⟩

/-- The image whose color at `(x, y)` is `y`: every tile's top row is 0
and bottom row is 1. -/
def rowImg : Img := fun _ y => y

/-- Counterexample to C6 as stated: tiles 0 and 1 of `identTiles` are
identical in every pixel under `rowImg`, yet adjacency derivation yields
no up-adjacency between them (nor self up-adjacency): the up rule
compares tile 0's top row (all 0) with the candidate's bottom row (all
1), which differ. -/
theorem identical_tiles_not_mutually_adjacent :
    (∀ dx, dx < 2 → ∀ dy, dy < 2 →
      pixel rowImg (tile_at identTiles 0) dx dy = pixel rowImg (tile_at identTiles 1) dx dy) ∧
    1 ∉ (tile_at (generating_adjacency_rules identTiles rowImg 2) 0).up ∧
    0 ∉ (tile_at (generating_adjacency_rules identTiles rowImg 2) 0).up := by
  decide

/-- Core of the amended C6: if tiles `a` and `b` have identical pixels
and tile `a`'s top row equals its bottom row and its left column equals
its right column, then `b` lands in all four adjacency lists of `a`. -/
theorem generated_adj_of_identical
    {img : Img} {ts : Tileset} {size : Nat} {a b : Nat}
    (ha : a < ts.tiles.length) (hb : b < ts.tiles.length) (hsize : 0 < size)
    (hra : (tile_at ts a).rect.max.x = (tile_at ts a).rect.min.x + size ∧
           (tile_at ts a).rect.max.y = (tile_at ts a).rect.min.y + size)
    (hrb : (tile_at ts b).rect.max.x = (tile_at ts b).rect.min.x + size ∧
           (tile_at ts b).rect.max.y = (tile_at ts b).rect.min.y + size)
    (hab : ∀ dx, dx < size → ∀ dy, dy < size →
      pixel img (tile_at ts a) dx dy = pixel img (tile_at ts b) dx dy)
    (htb : ∀ m, m < size →
      pixel img (tile_at ts a) m 0 = pixel img (tile_at ts a) m (size - 1))
    (hlr : ∀ m, m < size →
      pixel img (tile_at ts a) 0 m = pixel img (tile_at ts a) (size - 1) m) :
    b ∈ (tile_at (generating_adjacency_rules ts img size) a).up ∧
    b ∈ (tile_at (generating_adjacency_rules ts img size) a).right ∧
    b ∈ (tile_at (generating_adjacency_rules ts img size) a).down ∧
    b ∈ (tile_at (generating_adjacency_rules ts img size) a).left := by
  refine ⟨?_, ?_, ?_, ?_⟩
  · rw [mem_generated_up ha]
    refine Or.inr ⟨hb, compare_edge_eq_true_iff.mpr fun m hm => ?_⟩
    have hy : (tile_at ts b).rect.max.y - 1 = (tile_at ts b).rect.min.y + (size - 1) := by
      omega
    simp only [one_mul, Nat.zero_mul, Nat.add_zero, hy]
    calc img ((tile_at ts a).rect.min.x + m) ((tile_at ts a).rect.min.y)
        = pixel img (tile_at ts a) m 0 := by simp [pixel]
      _ = pixel img (tile_at ts a) m (size - 1) := htb m hm
      _ = pixel img (tile_at ts b) m (size - 1) := hab m hm (size - 1) (by omega)
      _ = img ((tile_at ts b).rect.min.x + m) ((tile_at ts b).rect.min.y + (size - 1)) := rfl
  · rw [mem_generated_right ha]
    refine Or.inr ⟨hb, compare_edge_eq_true_iff.mpr fun m hm => ?_⟩
    have hx : (tile_at ts a).rect.max.x - 1 = (tile_at ts a).rect.min.x + (size - 1) := by
      omega
    simp only [one_mul, Nat.zero_mul, Nat.add_zero, hx]
    calc img ((tile_at ts a).rect.min.x + (size - 1)) ((tile_at ts a).rect.min.y + m)
        = pixel img (tile_at ts a) (size - 1) m := rfl
      _ = pixel img (tile_at ts a) 0 m := (hlr m hm).symm
      _ = pixel img (tile_at ts b) 0 m := hab 0 hsize m hm
      _ = img ((tile_at ts b).rect.min.x) ((tile_at ts b).rect.min.y + m) := by simp [pixel]
  · rw [mem_generated_down ha]
    refine Or.inr ⟨hb, compare_edge_eq_true_iff.mpr fun m hm => ?_⟩
    have hy : (tile_at ts a).rect.max.y - 1 = (tile_at ts a).rect.min.y + (size - 1) := by
      omega
    simp only [one_mul, Nat.zero_mul, Nat.add_zero, hy]
    calc img ((tile_at ts a).rect.min.x + m) ((tile_at ts a).rect.min.y + (size - 1))
        = pixel img (tile_at ts a) m (size - 1) := rfl
      _ = pixel img (tile_at ts a) m 0 := (htb m hm).symm
      _ = pixel img (tile_at ts b) m 0 := hab m hm 0 hsize
      _ = img ((tile_at ts b).rect.min.x + m) ((tile_at ts b).rect.min.y) := by simp [pixel]
  · rw [mem_generated_left ha]
    refine Or.inr ⟨hb, compare_edge_eq_true_iff.mpr fun m hm => ?_⟩
    have hx : (tile_at ts b).rect.max.x - 1 = (tile_at ts b).rect.min.x + (size - 1) := by
      omega
    simp only [one_mul, Nat.zero_mul, Nat.add_zero, hx]
    calc img ((tile_at ts a).rect.min.x) ((tile_at ts a).rect.min.y + m)
        = pixel img (tile_at ts a) 0 m := by simp [pixel]
      _ = pixel img (tile_at ts a) (size - 1) m := hlr m hm
      _ = pixel img (tile_at ts b) (size - 1) m := hab (size - 1) (by omega) m hm
      _ = img ((tile_at ts b).rect.min.x + (size - 1)) ((tile_at ts b).rect.min.y + m) := rfl

/-- C6 (amended): adjacency derivation compares every ordered pair of
tiles, self-pairs included, on the touching edge strips.  Two tiles
identical in every pixel whose shared top row equals their bottom row and
whose left column equals their right column produce mutual and self
adjacency on all four sides; and two tiles differing in every border
pixel along an edge (here: `k`'s top row vs `l`'s bottom row) produce no
adjacency on that edge. -/
theorem adjacency_derivation_edges
    (img : Img) (ts : Tileset) (size : Nat) (i j k l : Nat)
    (hempty : ∀ t ∈ ts.tiles, t.up = [] ∧ t.right = [] ∧ t.down = [] ∧ t.left = [])
    (hi : i < ts.tiles.length) (hj : j < ts.tiles.length)
    (hk : k < ts.tiles.length) (hl : l < ts.tiles.length) (hsize : 0 < size)
    (hri : (tile_at ts i).rect.max.x = (tile_at ts i).rect.min.x + size ∧
           (tile_at ts i).rect.max.y = (tile_at ts i).rect.min.y + size)
    (hrj : (tile_at ts j).rect.max.x = (tile_at ts j).rect.min.x + size ∧
           (tile_at ts j).rect.max.y = (tile_at ts j).rect.min.y + size)
    (hrl : (tile_at ts l).rect.max.x = (tile_at ts l).rect.min.x + size ∧
           (tile_at ts l).rect.max.y = (tile_at ts l).rect.min.y + size)
    (hident : ∀ dx, dx < size → ∀ dy, dy < size →
      pixel img (tile_at ts i) dx dy = pixel img (tile_at ts j) dx dy)
    (htb : ∀ m, m < size →
      pixel img (tile_at ts i) m 0 = pixel img (tile_at ts i) m (size - 1))
    (hlr : ∀ m, m < size →
      pixel img (tile_at ts i) 0 m = pixel img (tile_at ts i) (size - 1) m)
    (hdiff : ∀ m, m < size →
      pixel img (tile_at ts k) m 0 ≠ pixel img (tile_at ts l) m (size - 1)) :
    (j ∈ (tile_at (generating_adjacency_rules ts img size) i).up ∧
     j ∈ (tile_at (generating_adjacency_rules ts img size) i).right ∧
     j ∈ (tile_at (generating_adjacency_rules ts img size) i).down ∧
     j ∈ (tile_at (generating_adjacency_rules ts img size) i).left) ∧
    (i ∈ (tile_at (generating_adjacency_rules ts img size) j).up ∧
     i ∈ (tile_at (generating_adjacency_rules ts img size) j).right ∧
     i ∈ (tile_at (generating_adjacency_rules ts img size) j).down ∧
     i ∈ (tile_at (generating_adjacency_rules ts img size) j).left) ∧
    (i ∈ (tile_at (generating_adjacency_rules ts img size) i).up ∧
     i ∈ (tile_at (generating_adjacency_rules ts img size) i).right ∧
     i ∈ (tile_at (generating_adjacency_rules ts img size) i).down ∧
     i ∈ (tile_at (generating_adjacency_rules ts img size) i).left) ∧
    (j ∈ (tile_at (generating_adjacency_rules ts img size) j).up ∧
     j ∈ (tile_at (generating_adjacency_rules ts img size) j).right ∧
     j ∈ (tile_at (generating_adjacency_rules ts img size) j).down ∧
     j ∈ (tile_at (generating_adjacency_rules ts img size) j).left) ∧
    l ∉ (tile_at (generating_adjacency_rules ts img size) k).up := by
  have hident' : ∀ dx, dx < size → ∀ dy, dy < size →
      pixel img (tile_at ts j) dx dy = pixel img (tile_at ts i) dx dy :=
    fun dx hdx dy hdy => (hident dx hdx dy hdy).symm
  have htbj : ∀ m, m < size →
      pixel img (tile_at ts j) m 0 = pixel img (tile_at ts j) m (size - 1) := by
    intro m hm
    calc pixel img (tile_at ts j) m 0
        = pixel img (tile_at ts i) m 0 := hident' m hm 0 hsize
      _ = pixel img (tile_at ts i) m (size - 1) := htb m hm
      _ = pixel img (tile_at ts j) m (size - 1) := hident m hm (size - 1) (by omega)
  have hlrj : ∀ m, m < size →
      pixel img (tile_at ts j) 0 m = pixel img (tile_at ts j) (size - 1) m := by
    intro m hm
    calc pixel img (tile_at ts j) 0 m
        = pixel img (tile_at ts i) 0 m := hident' 0 hsize m hm
      _ = pixel img (tile_at ts i) (size - 1) m := hlr m hm
      _ = pixel img (tile_at ts j) (size - 1) m := hident (size - 1) (by omega) m hm
  refine ⟨generated_adj_of_identical hi hj hsize hri hrj hident htb hlr,
    generated_adj_of_identical hj hi hsize hrj hri hident' htbj hlrj,
    generated_adj_of_identical hi hi hsize hri hri (fun _ _ _ _ => rfl) htb hlr,
    generated_adj_of_identical hj hj hsize hrj hrj (fun _ _ _ _ => rfl) htbj hlrj,
    ?_⟩
  intro hmem
  have hkempty : (tile_at ts k).up = [] := (hempty _ (getD_mem_of_lt hk defaultTile)).1
  rw [mem_generated_up hk] at hmem
  rcases hmem with hmem | ⟨_, hc⟩
  · rw [hkempty] at hmem
    exact List.not_mem_nil _ hmem
  · have h0 := compare_edge_eq_true_iff.mp hc 0 hsize
    simp only [Nat.mul_zero, Nat.add_zero] at h0
    apply hdiff 0 hsize
    have hy : (tile_at ts l).rect.max.y - 1 = (tile_at ts l).rect.min.y + (size - 1) := by
      omega
    calc pixel img (tile_at ts k) 0 0
        = img ((tile_at ts k).rect.min.x) ((tile_at ts k).rect.min.y) := by simp [pixel]
      _ = img ((tile_at ts l).rect.min.x) ((tile_at ts l).rect.max.y - 1) := h0
      _ = pixel img (tile_at ts l) 0 (size - 1) := by rw [hy]; simp [pixel]

/-- Four 1×1 tiles: tiles 0 and 1 are pixel-identical (color 0), tiles 2
and 3 have different colors (2 and 3), so their touching strips differ. -/
def edgeTiles : Tileset :=
  ⟨[Tile.new "a" ⟨⟨0, 0⟩, ⟨1, 1⟩⟩, Tile.new "b" ⟨⟨1, 0⟩, ⟨2, 1⟩⟩,
    Tile.new "c" ⟨⟨2, 0⟩, ⟨3, 1⟩⟩, Tile.new "d" ⟨⟨3, 0⟩, ⟨4, 1⟩⟩], 1⟩

/-- Image for `edgeTiles`: columns 0 and 1 share color 0, the rest keep
their x coordinate as color. -/
def edgeImg : Img := fun x _ => if x ≤ 1 then 0 else x

/-- Witness for the amended C6 at a concrete image and tileset. -/
theorem adjacency_derivation_edges_witness :
    (0 < 1 ∧ ∀ dx, dx < 1 → ∀ dy, dy < 1 →
      pixel edgeImg (tile_at edgeTiles 0) dx dy = pixel edgeImg (tile_at edgeTiles 1) dx dy) ∧
    ((1 ∈ (tile_at (generating_adjacency_rules edgeTiles edgeImg 1) 0).up ∧
      1 ∈ (tile_at (generating_adjacency_rules edgeTiles edgeImg 1) 0).right ∧
      1 ∈ (tile_at (generating_adjacency_rules edgeTiles edgeImg 1) 0).down ∧
      1 ∈ (tile_at (generating_adjacency_rules edgeTiles edgeImg 1) 0).left) ∧
     (0 ∈ (tile_at (generating_adjacency_rules edgeTiles edgeImg 1) 1).up ∧
      0 ∈ (tile_at (generating_adjacency_rules edgeTiles edgeImg 1) 1).right ∧
      0 ∈ (tile_at (generating_adjacency_rules edgeTiles edgeImg 1) 1).down ∧
      0 ∈ (tile_at (generating_adjacency_rules edgeTiles edgeImg 1) 1).left) ∧
     (0 ∈ (tile_at (generating_adjacency_rules edgeTiles edgeImg 1) 0).up ∧
      0 ∈ (tile_at (generating_adjacency_rules edgeTiles edgeImg 1) 0).right ∧
      0 ∈ (tile_at (generating_adjacency_rules edgeTiles edgeImg 1) 0).down ∧
      0 ∈ (tile_at (generating_adjacency_rules edgeTiles edgeImg 1) 0).left) ∧
     (1 ∈ (tile_at (generating_adjacency_rules edgeTiles edgeImg 1) 1).up ∧
      1 ∈ (tile_at (generating_adjacency_rules edgeTiles edgeImg 1) 1).right ∧
      1 ∈ (tile_at (generating_adjacency_rules edgeTiles edgeImg 1) 1).down ∧
      1 ∈ (tile_at (generating_adjacency_rules edgeTiles edgeImg 1) 1).left) ∧
     3 ∉ (tile_at (generating_adjacency_rules edgeTiles edgeImg 1) 2).up) :=
  ⟨⟨by decide, by decide⟩,
    adjacency_derivation_edges edgeImg edgeTiles 1 0 1 2 3 (by decide) (by decide) (by decide)
      (by decide) (by decide) (by decide) (by decide) (by decide) (by decide) (by decide)
      (by decide) (by decide) (by decide)⟩

/-! ### Lemmas about entropy selection -/

theorem take_findIdx_eq_takeWhile {α : Type} (p : α → Bool) (l : List α) :
    l.take (l.findIdx p) = l.takeWhile (fun a => !p a) := by
  induction l with
  | nil => rfl
  | cons a t ih =>
    rw [List.findIdx_cons]
    cases h : p a with
    | false => simp [h, ih, List.takeWhile_cons]
    | true => simp [h, List.takeWhile_cons]

theorem mem_takeWhile_sorted (key : Nat → Nat) (m : Nat) {l : List Nat}
    (hs : List.Sorted (fun a b => key a ≤ key b) l) (x : Nat) :
    x ∈ l.takeWhile (fun a => !decide (m < key a)) ↔ x ∈ l ∧ key x ≤ m := by
  induction l with
  | nil => simp
  | cons a t ih =>
    rw [List.sorted_cons] at hs
    rw [List.takeWhile_cons]
    by_cases hm : m < key a
    · rw [if_neg (by simp [hm])]
      constructor
      · intro h
        exact absurd h (List.not_mem_nil x)
      · rintro ⟨hx, hkx⟩
        rcases List.mem_cons.mp hx with rfl | hx
        · omega
        · have := hs.1 x hx
          omega
    · rw [if_pos (by simp [hm])]
      rw [List.mem_cons, ih hs.2, List.mem_cons]
      constructor
      · rintro (rfl | ⟨hx, hkx⟩)
        · exact ⟨Or.inl rfl, by omega⟩
        · exact ⟨Or.inr hx, hkx⟩
      · rintro ⟨rfl | hx, hkx⟩
        · exact Or.inl rfl
        · exact Or.inr ⟨hx, hkx⟩

theorem sorted_head_min (key : Nat → Nat) {a : Nat} {t : List Nat}
    (hs : List.Sorted (fun x y => key x ≤ key y) (a :: t)) :
    ∀ y ∈ a :: t, key a ≤ key y := by
  intro y hy
  rcases List.mem_cons.mp hy with rfl | hy
  · exact le_refl _
  · exact (List.sorted_cons.mp hs).1 y hy

theorem pick_mem_iff (cells : List Cell) (p : Nat) :
    p ∈ pick_cell_with_least_entropy cells ↔
      p < cells.length ∧ (cells.getD p defaultCell).collapsed = false ∧
      ∀ q, q < cells.length → (cells.getD q defaultCell).collapsed = false →
        (cells.getD p defaultCell).sockets.length ≤
          (cells.getD q defaultCell).sockets.length := by
  have hmem_gc : ∀ q : Nat, q ∈ (List.range cells.length).filter
      (fun r => !(cells.getD r defaultCell).collapsed) ↔
      q < cells.length ∧ (cells.getD q defaultCell).collapsed = false := by
    intro q
    simp [List.mem_filter, List.mem_range]
  simp only [pick_cell_with_least_entropy]
  by_cases hemp : ((List.range cells.length).filter
      (fun r => !(cells.getD r defaultCell).collapsed)).isEmpty
  · rw [if_pos hemp]
    rw [List.isEmpty_iff] at hemp
    simp only [List.not_mem_nil, false_iff]
    rintro ⟨hp, hcol, _⟩
    have hpgc := (hmem_gc p).mpr ⟨hp, hcol⟩
    rw [hemp] at hpgc
    exact absurd hpgc (List.not_mem_nil _)
  · rw [if_neg hemp]
    rw [take_findIdx_eq_takeWhile]
    set key : Nat → Nat := fun q => (cells.getD q defaultCell).sockets.length with hkey
    set gc : List Nat := (List.range cells.length).filter
      (fun r => !(cells.getD r defaultCell).collapsed) with hgc
    haveI htot : IsTotal Nat (fun a b : Nat => key a ≤ key b) :=
      ⟨fun a b => Nat.le_total (key a) (key b)⟩
    haveI htrans : IsTrans Nat (fun a b : Nat => key a ≤ key b) :=
      ⟨fun _ _ _ hab hbc => Nat.le_trans hab hbc⟩
    have hsort : List.Sorted (fun a b : Nat => key a ≤ key b)
        (List.insertionSort (fun a b : Nat => key a ≤ key b) gc) :=
      List.sorted_insertionSort _ gc
    have hperm : (List.insertionSort (fun a b : Nat => key a ≤ key b) gc).Perm gc :=
      List.perm_insertionSort _ gc
    have hne : List.insertionSort (fun a b : Nat => key a ≤ key b) gc ≠ [] := by
      intro h
      have := List.length_insertionSort (fun a b : Nat => key a ≤ key b) gc
      rw [h] at this
      rw [List.isEmpty_iff] at hemp
      exact hemp (List.length_eq_zero.mp this.symm)
    obtain ⟨s0, St, hS0⟩ :=
      List.exists_cons_of_ne_nil hne
    rw [hS0]
    rw [hS0] at hsort hperm
    simp only [List.headD_cons]
    rw [mem_takeWhile_sorted key (key s0) hsort]
    have hhead : ∀ y ∈ gc, key s0 ≤ key y := by
      intro y hy
      exact sorted_head_min key hsort y (hperm.mem_iff.mpr hy)
    have hs0gc : s0 ∈ gc := hperm.mem_iff.mp (List.mem_cons_self s0 St)
    constructor
    · rintro ⟨hx, hkx⟩
      have hxgc : p ∈ gc := hperm.mem_iff.mp hx
      have := (hmem_gc p).mp hxgc
      refine ⟨this.1, this.2, fun q hq hqcol => ?_⟩
      have hqgc : q ∈ gc := (hmem_gc q).mpr ⟨hq, hqcol⟩
      exact Nat.le_trans hkx (hhead q hqgc)
    · rintro ⟨hp, hcol, hmin⟩
      have hpgc : p ∈ gc := (hmem_gc p).mpr ⟨hp, hcol⟩
      refine ⟨hperm.mem_iff.mpr hpgc, ?_⟩
      have := (hmem_gc s0).mp hs0gc
      exact hmin s0 this.1 this.2

theorem pick_eq_nil_iff (cells : List Cell) :
    pick_cell_with_least_entropy cells = [] ↔
      ∀ p, p < cells.length → (cells.getD p defaultCell).collapsed = true := by
  have hmem_gc : ∀ q : Nat, q ∈ (List.range cells.length).filter
      (fun r => !(cells.getD r defaultCell).collapsed) ↔
      q < cells.length ∧ (cells.getD q defaultCell).collapsed = false := by
    intro q
    simp [List.mem_filter, List.mem_range]
  simp only [pick_cell_with_least_entropy]
  by_cases hemp : ((List.range cells.length).filter
      (fun r => !(cells.getD r defaultCell).collapsed)).isEmpty
  · rw [if_pos hemp]
    rw [List.isEmpty_iff] at hemp
    simp only [true_iff]
    intro p hp
    by_contra hcol
    have hpgc := (hmem_gc p).mpr ⟨hp, by simpa using hcol⟩
    rw [hemp] at hpgc
    exact absurd hpgc (List.not_mem_nil _)
  · rw [if_neg hemp]
    rw [take_findIdx_eq_takeWhile]
    set key : Nat → Nat := fun q => (cells.getD q defaultCell).sockets.length with hkey
    set gc : List Nat := (List.range cells.length).filter
      (fun r => !(cells.getD r defaultCell).collapsed) with hgc
    have hne : List.insertionSort (fun a b : Nat => key a ≤ key b) gc ≠ [] := by
      intro h
      have := List.length_insertionSort (fun a b : Nat => key a ≤ key b) gc
      rw [h] at this
      rw [List.isEmpty_iff] at hemp
      exact hemp (List.length_eq_zero.mp this.symm)
    obtain ⟨s0, St, hS0⟩ := List.exists_cons_of_ne_nil hne
    rw [hS0]
    simp only [List.headD_cons]
    rw [List.takeWhile_cons, if_pos (by simp)]
    constructor
    · intro h
      exact absurd h (List.cons_ne_nil _ _)
    · intro hall
      have hperm : (List.insertionSort (fun a b : Nat => key a ≤ key b) gc).Perm gc :=
        List.perm_insertionSort _ gc
      rw [hS0] at hperm
      have hs0gc : s0 ∈ gc := hperm.mem_iff.mp (List.mem_cons_self s0 St)
      have := (hmem_gc s0).mp hs0gc
      rw [hall s0 this.1] at this
      exact absurd this.2 (by simp)

/-- Four uncollapsed cells with socket counts 3, 1, 1, 2. -/
def entropyDemo : List Cell :=
  [⟨0, false, [0, 1, 2]⟩, ⟨1, false, [0]⟩, ⟨2, false, [1]⟩, ⟨3, false, [0, 1]⟩]

/-- C5: `pick_cell_with_least_entropy` returns exactly the (positions of
the) uncollapsed cells whose socket count equals the minimum socket count
among all uncollapsed cells — every tied cell — and returns the empty
list iff no uncollapsed cell remains; on socket counts {3,1,1,2} it
returns exactly the two cells with count 1. -/
theorem least_entropy_exact :
    (∀ cells p, p ∈ pick_cell_with_least_entropy cells ↔
      p < cells.length ∧ (cells.getD p defaultCell).collapsed = false ∧
      ∀ q, q < cells.length → (cells.getD q defaultCell).collapsed = false →
        (cells.getD p defaultCell).sockets.length ≤
          (cells.getD q defaultCell).sockets.length) ∧
    (∀ cells, pick_cell_with_least_entropy cells = [] ↔
      ∀ p, p < cells.length → (cells.getD p defaultCell).collapsed = true) ∧
    pick_cell_with_least_entropy entropyDemo = [1, 2] :=
  ⟨pick_mem_iff, pick_eq_nil_iff, by decide⟩

/-! ### Lemmas about the collapse driver -/

theorem selection_success {rng : Rng} {cells : List Cell} {targets : List Nat}
    (h : (random_selection_of_sockets rng cells targets).1 = true) :
    ∃ p t, p ∈ targets ∧ t ∈ (cells.getD p defaultCell).sockets ∧
      (random_selection_of_sockets rng cells targets).2.1 =
        cells.set p ⟨(cells.getD p defaultCell).index, true, [t]⟩ := by
  unfold random_selection_of_sockets at h ⊢
  by_cases hemp : targets.isEmpty
  · rw [if_pos hemp] at h
    exact absurd h (by simp)
  · rw [if_neg hemp] at h ⊢
    by_cases hsock :
        (cells.getD (targets.getD (rng.draw targets.length).1 0) defaultCell).sockets.isEmpty
    · rw [if_pos hsock] at h
      exact absurd h (by simp)
    · rw [if_neg hsock] at h ⊢
      have hlen : 0 < targets.length :=
        List.length_pos.mpr fun hn => hemp (List.isEmpty_iff.mpr hn)
      have hklt : (rng.draw targets.length).1 < targets.length := by
        simp only [Rng.draw]
        exact Nat.mod_lt _ hlen
      have hslen :
          0 < (cells.getD (targets.getD (rng.draw targets.length).1 0) defaultCell).sockets.length :=
        List.length_pos.mpr fun hn => hsock (List.isEmpty_iff.mpr hn)
      refine ⟨targets.getD (rng.draw targets.length).1 0, _, ?_, ?_, rfl⟩
      · exact getD_mem_of_lt hklt 0
      · apply getD_mem_of_lt
        simp only [Rng.draw]
        exact Nat.mod_lt _ hslen

instance (cells : List Cell) : Decidable (collapsed_singleton cells) := by
  unfold collapsed_singleton
  exact inferInstance

theorem collapsed_singleton_set {cells : List Cell} {p : Nat} {c : Cell}
    (h : collapsed_singleton cells) (hc : c.collapsed = true → c.sockets.length = 1) :
    collapsed_singleton (cells.set p c) := by
  intro x hx hxc
  rcases List.mem_or_eq_of_mem_set hx with hx | rfl
  · exact h x hx hxc
  · exact hc hxc

theorem mem_wave_collapse {cells : List Cell} {dim : Nat} {ts : Tileset} {x : Cell}
    (hx : x ∈ wave_collapse cells dim ts) :
    ∃ index, index < dim * dim ∧ x = (wave_collapse cells dim ts).getD index defaultCell := by
  obtain ⟨n, hn, hget⟩ := List.mem_iff_getElem.mp hx
  refine ⟨n, by rwa [length_wave_collapse] at hn, ?_⟩
  rw [List.getD_eq_getElem _ _ hn, hget]

theorem collapsed_singleton_wave {cells : List Cell} {dim : Nat} {ts : Tileset}
    (h : collapsed_singleton cells) :
    collapsed_singleton (wave_collapse cells dim ts) := by
  intro x hx hxc
  obtain ⟨index, hidx, rfl⟩ := mem_wave_collapse hx
  rw [wave_collapse_getD hidx] at hxc ⊢
  by_cases hcol : (cells.getD index defaultCell).collapsed
  · rw [if_pos hcol] at hxc ⊢
    by_cases hlt : index < cells.length
    · exact h _ (getD_mem_of_lt hlt _) hxc
    · rw [List.getD_eq_default _ _ (Nat.le_of_not_lt hlt)] at hxc
      exact absurd hxc (by simp [defaultCell])
  · rw [if_neg hcol] at hxc
    exact absurd hxc (by simp [Cell.from_list])

theorem collapse_with_some_aux {initial : List Cell} {dim : Nat} {ts : Tileset}
    (hinit : collapsed_singleton initial) :
    ∀ fuel (cells : List Cell) (rng : Rng) (out : List Cell), collapsed_singleton cells →
      collapse_with initial dim ts fuel cells rng = some out →
      collapsed_singleton out ∧
        ∀ p, p < out.length → (out.getD p defaultCell).collapsed = true := by
  intro fuel
  induction fuel with
  | zero =>
    intro cells rng out _ h
    exact absurd h (by simp [collapse_with])
  | succ fuel ih =>
    intro cells rng out hsing h
    simp only [collapse_with] at h
    by_cases hemp : (pick_cell_with_least_entropy cells).isEmpty
    · rw [if_pos hemp] at h
      obtain rfl := Option.some.inj h
      refine ⟨hsing, fun p hp => ?_⟩
      exact (pick_eq_nil_iff cells).mp (List.isEmpty_iff.mp hemp) p hp
    · rw [if_neg hemp] at h
      by_cases hsel :
          (random_selection_of_sockets rng cells (pick_cell_with_least_entropy cells)).1 = true
      · rw [if_pos hsel] at h
        obtain ⟨p, t, _, _, heq⟩ := selection_success hsel
        refine ih _ _ _ ?_ h
        rw [heq]
        exact collapsed_singleton_wave (collapsed_singleton_set hsing fun _ => rfl)
      · rw [if_neg hsel] at h
        exact ih _ _ _ hinit h

/-- C2: if `Grid::collapse_with` terminates — the loop exits because no
uncollapsed cell remains — then every cell of the resulting grid is
collapsed and its socket list holds exactly one tile index (precondition:
every externally pre-collapsed cell of the initial grid already holds
exactly one socket). -/
theorem completed_grid_all_collapsed
    (initial : List Cell) (dimension : Nat) (tileset : Tileset) (fuel : Nat) (rng : Rng)
    (out : List Cell)
    (hseed : collapsed_singleton initial)
    (hrun : collapse_with initial dimension tileset fuel initial rng = some out) :
    ∀ c ∈ out, c.collapsed = true ∧ c.sockets.length = 1 := by
  obtain ⟨hsing, hall⟩ := collapse_with_some_aux hseed fuel initial rng out hseed hrun
  intro c hc
  obtain ⟨n, hn, hget⟩ := List.mem_iff_getElem.mp hc
  have hcol := hall n hn
  rw [List.getD_eq_getElem _ _ hn, hget] at hcol
  exact ⟨hcol, hsing c hc hcol⟩

/-- One-tile tileset which is self-adjacent on all four sides (the spec's
worked example). -/
def unitTileset : Tileset := ⟨[⟨"a", ⟨⟨0, 0⟩, ⟨1, 1⟩⟩, [0], [0], [0], [0]⟩], 1⟩

/-- A fresh 2×2 grid over a single tile. -/
def unitGridCells : List Cell := (List.range 4).map fun index => Cell.from_value index 1

/-- An explicit generator state whose every draw is 0. -/
def zeroRng : Rng := ⟨fun _ => 0, 0⟩

/-- Witness for C2: the spec's worked example terminates with all four
cells collapsed to tile 0. -/
theorem completed_grid_all_collapsed_witness :
    collapsed_singleton unitGridCells ∧
    collapse_with unitGridCells 2 unitTileset 20 unitGridCells zeroRng =
      some [⟨0, true, [0]⟩, ⟨1, true, [0]⟩, ⟨2, true, [0]⟩, ⟨3, true, [0]⟩] ∧
    ∀ c ∈ [(⟨0, true, [0]⟩ : Cell), ⟨1, true, [0]⟩, ⟨2, true, [0]⟩, ⟨3, true, [0]⟩],
      c.collapsed = true ∧ c.sockets.length = 1 :=
  ⟨by decide, by decide,
    completed_grid_all_collapsed unitGridCells 2 unitTileset 20 zeroRng _ (by decide) (by decide)⟩

/-! ### The adjacency-consistency invariant of the collapse driver -/

/-- Internal invariant: every uncollapsed cell's sockets are permitted by
each of its collapsed neighbors (each socket lies in the collapsed
neighbor's adjacency list pointing back at this cell).  This is exactly
what one propagation sweep establishes. -/
def sockets_guarded (tileset : Tileset) (dimension : Nat) (cells : List Cell) : Prop :=
  ∀ i, i < dimension → ∀ j, j < dimension →
    (cellAt cells dimension i j).collapsed = false →
      (0 < j → (cellAt cells dimension i (j - 1)).collapsed = true →
        ∀ s ∈ (cellAt cells dimension i j).sockets,
          s ∈ dirList tileset (tileOf (cellAt cells dimension i (j - 1))) "down") ∧
      (i + 1 < dimension → (cellAt cells dimension (i + 1) j).collapsed = true →
        ∀ s ∈ (cellAt cells dimension i j).sockets,
          s ∈ dirList tileset (tileOf (cellAt cells dimension (i + 1) j)) "left") ∧
      (j + 1 < dimension → (cellAt cells dimension i (j + 1)).collapsed = true →
        ∀ s ∈ (cellAt cells dimension i j).sockets,
          s ∈ dirList tileset (tileOf (cellAt cells dimension i (j + 1))) "up") ∧
      (0 < i → (cellAt cells dimension (i - 1) j).collapsed = true →
        ∀ s ∈ (cellAt cells dimension i j).sockets,
          s ∈ dirList tileset (tileOf (cellAt cells dimension (i - 1) j)) "right")

/-- The full driver invariant, holding at every loop head. -/
def driver_inv (tileset : Tileset) (dimension : Nat) (cells : List Cell) : Prop :=
  cells.length = dimension * dimension ∧ collapsed_singleton cells ∧
    grid_consistent tileset dimension cells ∧ sockets_guarded tileset dimension cells

instance (ts : Tileset) (dim : Nat) (cells : List Cell) :
    Decidable (grid_consistent ts dim cells) := by
  unfold grid_consistent
  exact @Nat.decidableBallLT dim _ (fun i hi => @Nat.decidableBallLT dim _ (fun j hj =>
    inferInstance))

theorem idx_lt {dim i j : Nat} (hi : i < dim) (hj : j < dim) : i + j * dim < dim * dim := by
  have h1 : j * dim + dim ≤ dim * dim := by
    have := Nat.mul_le_mul_right dim hj
    rwa [Nat.succ_mul] at this
  omega

theorem cellAt_def (cells : List Cell) (dim i j : Nat) :
    cellAt cells dim i j = cells.getD (i + j * dim) defaultCell := rfl

theorem cellAt_wave {cells : List Cell} {dim : Nat} {ts : Tileset} {i j : Nat}
    (hi : i < dim) (hj : j < dim) :
    cellAt (wave_collapse cells dim ts) dim i j =
      if (cellAt cells dim i j).collapsed then cellAt cells dim i j
      else Cell.from_list (i + j * dim) (compute_sockets cells dim ts i j) := by
  have hdimpos : 0 < dim := Nat.lt_of_le_of_lt (Nat.zero_le i) hi
  have hmod : (i + j * dim) % dim = i := by
    rw [Nat.add_mul_mod_self_right]
    exact Nat.mod_eq_of_lt hi
  have hdiv : (i + j * dim) / dim = j := by
    rw [Nat.add_mul_div_right _ _ hdimpos, Nat.div_eq_of_lt hi]
    omega
  rw [cellAt_def, wave_collapse_getD (idx_lt hi hj), hmod, hdiv, cellAt_def]

theorem cellAt_set {cells : List Cell} {p : Nat} {c : Cell} {dim a b : Nat}
    (hp : p < cells.length) :
    cellAt (cells.set p c) dim a b =
      if a + b * dim = p then c else cellAt cells dim a b := by
  by_cases h : a + b * dim = p
  · rw [if_pos h, cellAt_def, h, getD_set_self hp]
  · rw [if_neg h, cellAt_def, getD_set_other (fun he => h he.symm), cellAt_def]

theorem get_valid_sockets_singleton {c : Cell} (h : c.sockets.length = 1)
    (d : String) (ts : Tileset) :
    get_valid_sockets c d ts = dirList ts (tileOf c) d := by
  obtain ⟨x, hx⟩ := List.length_eq_one.mp h
  unfold get_valid_sockets tileOf dirList
  rw [hx]
  simp

theorem grid_consistent_wave {ts : Tileset} {dim : Nat} {cells : List Cell}
    (h : grid_consistent ts dim cells) :
    grid_consistent ts dim (wave_collapse cells dim ts) := by
  intro i hi j hj hcol
  by_cases hc : (cellAt cells dim i j).collapsed = true
  case neg =>
    rw [cellAt_wave hi hj, if_neg hc] at hcol
    exact absurd hcol (by simp [Cell.from_list])
  case pos =>
    have hcw : cellAt (wave_collapse cells dim ts) dim i j = cellAt cells dim i j := by
      rw [cellAt_wave hi hj, if_pos hc]
    rw [hcw]
    have hmain := h i hi j hj hc
    refine ⟨?_, ?_, ?_, ?_⟩
    · intro hg hncol
      by_cases hnc : (cellAt cells dim i (j - 1)).collapsed = true
      · rw [cellAt_wave hi (by omega : j - 1 < dim), if_pos hnc] at hncol ⊢
        exact hmain.1 hg hnc
      · rw [cellAt_wave hi (by omega : j - 1 < dim), if_neg hnc] at hncol
        exact absurd hncol (by simp [Cell.from_list])
    · intro hg hncol
      by_cases hnc : (cellAt cells dim (i + 1) j).collapsed = true
      · rw [cellAt_wave hg hj, if_pos hnc] at hncol ⊢
        exact hmain.2.1 hg hnc
      · rw [cellAt_wave hg hj, if_neg hnc] at hncol
        exact absurd hncol (by simp [Cell.from_list])
    · intro hg hncol
      by_cases hnc : (cellAt cells dim i (j + 1)).collapsed = true
      · rw [cellAt_wave hi hg, if_pos hnc] at hncol ⊢
        exact hmain.2.2.1 hg hnc
      · rw [cellAt_wave hi hg, if_neg hnc] at hncol
        exact absurd hncol (by simp [Cell.from_list])
    · intro hg hncol
      by_cases hnc : (cellAt cells dim (i - 1) j).collapsed = true
      · rw [cellAt_wave (by omega : i - 1 < dim) hj, if_pos hnc] at hncol ⊢
        exact hmain.2.2.2 hg hnc
      · rw [cellAt_wave (by omega : i - 1 < dim) hj, if_neg hnc] at hncol
        exact absurd hncol (by simp [Cell.from_list])

theorem sockets_guarded_wave {ts : Tileset} {dim : Nat} {cells : List Cell}
    (hsing : collapsed_singleton cells) (hlen : cells.length = dim * dim) :
    sockets_guarded ts dim (wave_collapse cells dim ts) := by
  intro i hi j hj hcol
  by_cases hc : (cellAt cells dim i j).collapsed = true
  case pos =>
    rw [cellAt_wave hi hj, if_pos hc] at hcol
    exact absurd hc (by simp [hcol])
  case neg =>
    have hcw : cellAt (wave_collapse cells dim ts) dim i j =
        Cell.from_list (i + j * dim) (compute_sockets cells dim ts i j) := by
      rw [cellAt_wave hi hj, if_neg hc]
    refine ⟨?_, ?_, ?_, ?_⟩
    · intro hg hncol s hs
      rw [hcw] at hs
      have hs' : s ∈ compute_sockets cells dim ts i j := hs
      by_cases hnc : (cellAt cells dim i (j - 1)).collapsed = true
      · rw [cellAt_wave hi (by omega : j - 1 < dim), if_pos hnc] at hncol ⊢
        have hm := (mem_compute_sockets.mp hs').2.1 hg
        rw [← cellAt_def] at hm
        have hsl : (cellAt cells dim i (j - 1)).sockets.length = 1 :=
          hsing _ (getD_mem_of_lt (by rw [hlen]; exact idx_lt hi (by omega)) _) hnc
        rwa [get_valid_sockets_singleton hsl] at hm
      · rw [cellAt_wave hi (by omega : j - 1 < dim), if_neg hnc] at hncol
        exact absurd hncol (by simp [Cell.from_list])
    · intro hg hncol s hs
      rw [hcw] at hs
      have hs' : s ∈ compute_sockets cells dim ts i j := hs
      by_cases hnc : (cellAt cells dim (i + 1) j).collapsed = true
      · rw [cellAt_wave hg hj, if_pos hnc] at hncol ⊢
        have hm := (mem_compute_sockets.mp hs').2.2.1 (by omega)
        rw [← cellAt_def] at hm
        have hsl : (cellAt cells dim (i + 1) j).sockets.length = 1 :=
          hsing _ (getD_mem_of_lt (by rw [hlen]; exact idx_lt hg hj) _) hnc
        rwa [get_valid_sockets_singleton hsl] at hm
      · rw [cellAt_wave hg hj, if_neg hnc] at hncol
        exact absurd hncol (by simp [Cell.from_list])
    · intro hg hncol s hs
      rw [hcw] at hs
      have hs' : s ∈ compute_sockets cells dim ts i j := hs
      by_cases hnc : (cellAt cells dim i (j + 1)).collapsed = true
      · rw [cellAt_wave hi hg, if_pos hnc] at hncol ⊢
        have hm := (mem_compute_sockets.mp hs').2.2.2.1 (by omega)
        rw [← cellAt_def] at hm
        have hsl : (cellAt cells dim i (j + 1)).sockets.length = 1 :=
          hsing _ (getD_mem_of_lt (by rw [hlen]; exact idx_lt hi hg) _) hnc
        rwa [get_valid_sockets_singleton hsl] at hm
      · rw [cellAt_wave hi hg, if_neg hnc] at hncol
        exact absurd hncol (by simp [Cell.from_list])
    · intro hg hncol s hs
      rw [hcw] at hs
      have hs' : s ∈ compute_sockets cells dim ts i j := hs
      by_cases hnc : (cellAt cells dim (i - 1) j).collapsed = true
      · rw [cellAt_wave (by omega : i - 1 < dim) hj, if_pos hnc] at hncol ⊢
        have hm := (mem_compute_sockets.mp hs').2.2.2.2 hg
        rw [← cellAt_def] at hm
        have hsl : (cellAt cells dim (i - 1) j).sockets.length = 1 :=
          hsing _ (getD_mem_of_lt (by rw [hlen]; exact idx_lt (by omega : i - 1 < dim) hj) _) hnc
        rwa [get_valid_sockets_singleton hsl] at hm
      · rw [cellAt_wave (by omega : i - 1 < dim) hj, if_neg hnc] at hncol
        exact absurd hncol (by simp [Cell.from_list])

theorem fresh_driver_inv {ts : Tileset} {dim : Nat} {initial : List Cell}
    (hlen : initial.length = dim * dim)
    (hfresh : ∀ c ∈ initial, c.collapsed = false) :
    driver_inv ts dim initial := by
  have hc : ∀ i j, i < dim → j < dim → (cellAt initial dim i j).collapsed = false := by
    intro i j hi hj
    exact hfresh _ (getD_mem_of_lt (by rw [hlen]; exact idx_lt hi hj) _)
  refine ⟨hlen, ?_, ?_, ?_⟩
  · intro c hcmem hccol
    rw [hfresh c hcmem] at hccol
    exact absurd hccol (by simp)
  · intro i hi j hj hcol
    rw [hc i j hi hj] at hcol
    exact absurd hcol (by simp)
  · intro i hi j hj _
    refine ⟨?_, ?_, ?_, ?_⟩
    · intro hg hncol
      rw [hc i (j - 1) hi (by omega)] at hncol
      exact absurd hncol (by simp)
    · intro hg hncol
      rw [hc (i + 1) j hg hj] at hncol
      exact absurd hncol (by simp)
    · intro hg hncol
      rw [hc i (j + 1) hi hg] at hncol
      exact absurd hncol (by simp)
    · intro hg hncol
      rw [hc (i - 1) j (by omega) hj] at hncol
      exact absurd hncol (by simp)

theorem mul_dim_lt {a b dim : Nat} (h : a < b) (hd : 0 < dim) : a * dim < b * dim := by
  have := Nat.mul_le_mul_right dim (Nat.succ_le_of_lt h)
  rw [Nat.succ_mul] at this
  omega

/-- Collapsing one uncollapsed cell to a tile drawn from its (guarded)
socket set keeps the grid adjacency-consistent, provided the tileset's
adjacency lists are opposite-symmetric. -/
theorem grid_consistent_select {ts : Tileset} {dim : Nat} {cells : List Cell} {p t : Nat}
    (hsym : opposite_symmetric ts)
    (hcons : grid_consistent ts dim cells)
    (hguard : sockets_guarded ts dim cells)
    (hp : p < cells.length)
    (hpcol : (cells.getD p defaultCell).collapsed = false)
    (ht : t ∈ (cells.getD p defaultCell).sockets) :
    grid_consistent ts dim
      (cells.set p ⟨(cells.getD p defaultCell).index, true, [t]⟩) := by
  intro i hi j hj hcol
  have hdimpos : 0 < dim := Nat.lt_of_le_of_lt (Nat.zero_le i) hi
  rw [cellAt_set hp] at hcol
  by_cases hcp : i + j * dim = p
  case pos =>
    have hpcell : cellAt cells dim i j = cells.getD p defaultCell := by
      rw [cellAt_def, hcp]
    have hguardp := hguard i hi j hj (by rw [hpcell]; exact hpcol)
    refine ⟨?_, ?_, ?_, ?_⟩
    · intro hg hncol
      have hmul : (j - 1) * dim < j * dim := mul_dim_lt (by omega) hdimpos
      have hne : i + (j - 1) * dim ≠ p := by omega
      simp only [cellAt_set hp] at hncol ⊢
      rw [if_neg hne] at hncol
      rw [if_neg hne, if_pos hcp]
      have hd := hguardp.1 hg hncol t (by rw [hpcell]; exact ht)
      exact (hsym t (tileOf (cellAt cells dim i (j - 1)))).1.mpr hd
    · intro hg hncol
      have hne : i + 1 + j * dim ≠ p := by omega
      simp only [cellAt_set hp] at hncol ⊢
      rw [if_neg hne] at hncol
      rw [if_neg hne, if_pos hcp]
      have hd := hguardp.2.1 hg hncol t (by rw [hpcell]; exact ht)
      exact (hsym (tileOf (cellAt cells dim (i + 1) j)) t).2.mp hd
    · intro hg hncol
      have hmul : j * dim < (j + 1) * dim := mul_dim_lt (by omega) hdimpos
      have hne : i + (j + 1) * dim ≠ p := by omega
      simp only [cellAt_set hp] at hncol ⊢
      rw [if_neg hne] at hncol
      rw [if_neg hne, if_pos hcp]
      have hd := hguardp.2.2.1 hg hncol t (by rw [hpcell]; exact ht)
      exact (hsym (tileOf (cellAt cells dim i (j + 1))) t).1.mp hd
    · intro hg hncol
      have hne : i - 1 + j * dim ≠ p := by omega
      simp only [cellAt_set hp] at hncol ⊢
      rw [if_neg hne] at hncol
      rw [if_neg hne, if_pos hcp]
      have hd := hguardp.2.2.2 hg hncol t (by rw [hpcell]; exact ht)
      exact (hsym t (tileOf (cellAt cells dim (i - 1) j))).2.mpr hd
  case neg =>
    rw [if_neg hcp] at hcol
    refine ⟨?_, ?_, ?_, ?_⟩
    · intro hg hncol
      by_cases hnp : i + (j - 1) * dim = p
      case pos =>
        simp only [cellAt_set hp] at hncol ⊢
        rw [if_pos hnp] at hncol
        rw [if_pos hnp, if_neg hcp]
        have hq : cellAt cells dim i (j - 1) = cells.getD p defaultCell := by
          rw [cellAt_def, hnp]
        have hguardq := hguard i hi (j - 1) (by omega) (by rw [hq]; exact hpcol)
        have hj1 : j - 1 + 1 = j := by omega
        rw [hj1] at hguardq
        exact hguardq.2.2.1 (by omega) hcol t (by rw [hq]; exact ht)
      case neg =>
        simp only [cellAt_set hp] at hncol ⊢
        rw [if_neg hnp] at hncol
        rw [if_neg hnp, if_neg hcp]
        exact (hcons i hi j hj hcol).1 hg hncol
    · intro hg hncol
      by_cases hnp : i + 1 + j * dim = p
      case pos =>
        simp only [cellAt_set hp] at hncol ⊢
        rw [if_pos hnp] at hncol
        rw [if_pos hnp, if_neg hcp]
        have hq : cellAt cells dim (i + 1) j = cells.getD p defaultCell := by
          rw [cellAt_def, hnp]
        have hguardq := hguard (i + 1) hg j hj (by rw [hq]; exact hpcol)
        have hi1 : i + 1 - 1 = i := by omega
        rw [hi1] at hguardq
        exact hguardq.2.2.2 (by omega) hcol t (by rw [hq]; exact ht)
      case neg =>
        simp only [cellAt_set hp] at hncol ⊢
        rw [if_neg hnp] at hncol
        rw [if_neg hnp, if_neg hcp]
        exact (hcons i hi j hj hcol).2.1 hg hncol
    · intro hg hncol
      by_cases hnp : i + (j + 1) * dim = p
      case pos =>
        simp only [cellAt_set hp] at hncol ⊢
        rw [if_pos hnp] at hncol
        rw [if_pos hnp, if_neg hcp]
        have hq : cellAt cells dim i (j + 1) = cells.getD p defaultCell := by
          rw [cellAt_def, hnp]
        have hguardq := hguard i hi (j + 1) hg (by rw [hq]; exact hpcol)
        have hj1 : j + 1 - 1 = j := by omega
        rw [hj1] at hguardq
        exact hguardq.1 (by omega) hcol t (by rw [hq]; exact ht)
      case neg =>
        simp only [cellAt_set hp] at hncol ⊢
        rw [if_neg hnp] at hncol
        rw [if_neg hnp, if_neg hcp]
        exact (hcons i hi j hj hcol).2.2.1 hg hncol
    · intro hg hncol
      by_cases hnp : i - 1 + j * dim = p
      case pos =>
        simp only [cellAt_set hp] at hncol ⊢
        rw [if_pos hnp] at hncol
        rw [if_pos hnp, if_neg hcp]
        have hq : cellAt cells dim (i - 1) j = cells.getD p defaultCell := by
          rw [cellAt_def, hnp]
        have hguardq := hguard (i - 1) (by omega) j hj (by rw [hq]; exact hpcol)
        have hi1 : i - 1 + 1 = i := by omega
        rw [hi1] at hguardq
        exact hguardq.2.1 hi hcol t (by rw [hq]; exact ht)
      case neg =>
        simp only [cellAt_set hp] at hncol ⊢
        rw [if_neg hnp] at hncol
        rw [if_neg hnp, if_neg hcp]
        exact (hcons i hi j hj hcol).2.2.2 hg hncol

theorem collapse_with_consistent_aux {initial : List Cell} {dim : Nat} {ts : Tileset}
    (hsym : opposite_symmetric ts) (hinv0 : driver_inv ts dim initial) :
    ∀ fuel (cells : List Cell) (rng : Rng) (out : List Cell), driver_inv ts dim cells →
      collapse_with initial dim ts fuel cells rng = some out →
      grid_consistent ts dim out := by
  intro fuel
  induction fuel with
  | zero =>
    intro cells rng out _ h
    exact absurd h (by simp [collapse_with])
  | succ fuel ih =>
    intro cells rng out hinv h
    simp only [collapse_with] at h
    by_cases hemp : (pick_cell_with_least_entropy cells).isEmpty
    · rw [if_pos hemp] at h
      obtain rfl := Option.some.inj h
      exact hinv.2.2.1
    · rw [if_neg hemp] at h
      by_cases hsel :
          (random_selection_of_sockets rng cells (pick_cell_with_least_entropy cells)).1 = true
      · rw [if_pos hsel] at h
        obtain ⟨p, t, hpin, htm, heq⟩ := selection_success hsel
        obtain ⟨hplen, hpcol, _⟩ := (pick_mem_iff cells p).mp hpin
        obtain ⟨hlen, hsing, hcons, hguard⟩ := hinv
        refine ih _ _ _ ?_ h
        rw [heq]
        have hlen1 :
            (cells.set p ⟨(cells.getD p defaultCell).index, true, [t]⟩).length = dim * dim := by
          rw [List.length_set]
          exact hlen
        refine ⟨?_, ?_, ?_, ?_⟩
        · rw [length_wave_collapse]
        · exact collapsed_singleton_wave (collapsed_singleton_set hsing fun _ => rfl)
        · exact grid_consistent_wave (grid_consistent_select hsym hcons hguard hplen hpcol htm)
        · exact sockets_guarded_wave (collapsed_singleton_set hsing fun _ => rfl) hlen1
      · rw [if_neg hsel] at h
        exact ih _ _ _ hinv0 h

/-- A two-tile tileset with opposite-symmetric adjacency in which tile 1
may not sit to the right of tile 0 (`1 ∉ tiles[0].right`). -/
def cexTileset : Tileset :=
  ⟨[⟨"a", ⟨⟨0, 0⟩, ⟨1, 1⟩⟩, [0, 1], [0], [0, 1], [0, 1]⟩,
    ⟨"b", ⟨⟨1, 0⟩, ⟨2, 1⟩⟩, [0, 1], [0, 1], [0, 1], [1]⟩], 1⟩

/-- A 2×2 grid pre-seeded with two adjacent collapsed cells holding the
forbidden horizontal pair (tile 0 left of tile 1). -/
def cexSeed : List Cell :=
  [⟨0, true, [0]⟩, ⟨1, true, [1]⟩, ⟨2, false, [0, 1]⟩, ⟨3, false, [0, 1]⟩]

/-- Counterexample to C1 as stated (over every grid): on a grid whose
externally pre-seeded collapsed cells already violate an adjacency
constraint, `collapse_with` terminates — collapsed cells are never
revisited and restarts restore the same seed — and the completed grid
fails the post-hoc adjacency check. -/
theorem collapse_with_preseeded_inconsistent :
    collapse_with cexSeed 2 cexTileset 20 cexSeed zeroRng =
      some [⟨0, true, [0]⟩, ⟨1, true, [1]⟩, ⟨2, true, [0]⟩, ⟨3, true, [0]⟩] ∧
    ¬ grid_consistent cexTileset 2
      [⟨0, true, [0]⟩, ⟨1, true, [1]⟩, ⟨2, true, [0]⟩, ⟨3, true, [0]⟩] :=
  ⟨by decide, by decide⟩

/-- C1 (amended): for a tileset whose adjacency lists are
opposite-symmetric (as every derived tileset is) and an initial grid with
no pre-collapsed cells, whenever `Grid::collapse_with` terminates, every
pair of adjacent cells of the completed grid satisfies the directional
adjacency constraint — checkable post hoc, independently of how the grid
was built. -/
theorem completed_grid_consistent
    (initial : List Cell) (dimension : Nat) (tileset : Tileset) (fuel : Nat) (rng : Rng)
    (out : List Cell)
    (hsym : opposite_symmetric tileset)
    (hlen : initial.length = dimension * dimension)
    (hfresh : ∀ c ∈ initial, c.collapsed = false)
    (hrun : collapse_with initial dimension tileset fuel initial rng = some out) :
    grid_consistent tileset dimension out :=
  collapse_with_consistent_aux hsym (fresh_driver_inv hlen hfresh) fuel initial rng out
    (fresh_driver_inv hlen hfresh) hrun

theorem unitTileset_symmetric : opposite_symmetric unitTileset := by
  intro a b
  rw [dirList_up, dirList_down, dirList_left, dirList_right]
  rcases a with _ | a <;> rcases b with _ | b <;>
    simp [tile_at, unitTileset, defaultTile, Tile.new, List.getD_cons_succ, List.getD_nil]

/-- Witness for the amended C1: the spec's worked example — a 2×2 grid
over one self-adjacent tile — completes and the completed grid passes the
adjacency check. -/
theorem completed_grid_consistent_witness :
    (unitGridCells.length = 2 * 2 ∧ ∀ c ∈ unitGridCells, c.collapsed = false) ∧
    grid_consistent unitTileset 2
      [⟨0, true, [0]⟩, ⟨1, true, [0]⟩, ⟨2, true, [0]⟩, ⟨3, true, [0]⟩] :=
  ⟨⟨by decide, by decide⟩,
    completed_grid_consistent unitGridCells 2 unitTileset 20 zeroRng
      [⟨0, true, [0]⟩, ⟨1, true, [0]⟩, ⟨2, true, [0]⟩, ⟨3, true, [0]⟩]
      unitTileset_symmetric (by decide) (by decide) (by decide)⟩

/-- C7 evidence: `Tileset::new` on a slice map whose second region is
3×3 while the established tile size is 2 still produces a tileset
containing BOTH regions as tiles — the source's mismatch branch only
logs `error!` and falls through to the push (unlike the parallel loop in
`src/main.rs`, which has `continue`). -/
theorem tileset_new_keeps_mismatched_region :
    ((Tileset.new [("a", ⟨⟨0, 0⟩, ⟨2, 2⟩⟩), ("b", ⟨⟨2, 0⟩, ⟨5, 3⟩⟩)] (fun _ _ => 0)).tiles.map
      (fun t => t.slice_name)) = ["a", "b"] ∧
    (Tileset.new [("a", ⟨⟨0, 0⟩, ⟨2, 2⟩⟩), ("b", ⟨⟨2, 0⟩, ⟨5, 3⟩⟩)] (fun _ _ => 0)).tile_size = 2 := by
  have hab : ("a" : String) ≤ "b" := by
    rw [String.le_iff_toList_le]
    decide
  constructor
  · simp only [Tileset.new, Tile.new, List.insertionSort, List.orderedInsert,
      generating_adjacency_rules]
    rw [if_pos hab]
    simp
  · decide

end WfcAse
